import Mathlib

/-!
# Verification of the excel-aggregator grid-navigation DSL

A shallow embedding of `src/excel-aggregator.py`: the `Location` cursor
over a CSV grid, its navigation loops, the `Finder` rule-combinator layer,
the two search primitives, the numeric transform `remove_pvm`, and the
row-assembly core of `aggregate_csv_data`.

Modelling conventions:
* A grid (`Sheet`) is a list of rows of strings, exactly the value
  `list(csv.reader(...))` that `aggregate_csv_data` passes to every rule.
* Python runtime values reachable by a cursor's `value` field are modelled
  by `Val`: a cell string, a number produced by a transform, or `None`
  (Python's `None`, as stored by `Location.move` when `_get_cell_value`
  misses; distinct from "not found").
* Coordinates are integers, as in Python; bounds checks reject negatives.
* The `while True` loops of `_moveUntilValue`, `_moveUntil` and
  `_moveUntilLastContinuousValue` are given a fuel parameter; exhausting
  fuel yields the distinguished result `FRes.fuelOut`, which models
  non-termination of the Python loop.  The canonical fuel `fuelB` is
  proved sufficient for the four unit directions.
* A raised Python exception (a transform failure) is `FRes.err`; it is a
  distinct outcome from `FRes.notFound` (Python `None`).
-/

namespace Excel

/-- A grid: the `list(csv.reader(csvfile))` handed to every rule — a
possibly jagged list of rows of cell strings. -/
abbrev Sheet := List (List String)

/-- Python runtime values a `Location.value` can hold: a cell string, a
number (result of `remove_pvm`), or Python's `None`. -/
inductive Val where
  | str (s : String)
  | num (q : Rat)
  | pyNone
deriving DecidableEq

/-- The `Location` dataclass: cursor coordinates, current value, the grid,
and the matched-prefix/suffix context (`prefix`/`suffix` in the source;
those are Lean keywords, so the fields are named `pfx`/`sfx`). Both
default to `""` exactly as in the dataclass. -/
structure Location where
  x : Int
  y : Int
  value : Val
  sheet : Sheet
  pfx : String := ""
  sfx : String := ""
deriving DecidableEq

/-- Length of row `y`, read the way Python does after the `0 <= y` guard
has passed (out-of-range `y` gives the default `[]`, length 0). -/
def rowLenAt (sheet : Sheet) (y : Int) : Nat :=
  (sheet.getD y.toNat []).length

/-- `Location._within_bounds`: `0 <= y < len(sheet) and 0 <= x < len(sheet[y])`. -/
def withinBounds (sheet : Sheet) (x y : Int) : Bool :=
  decide (0 ≤ y ∧ y < (sheet.length : Int) ∧ 0 ≤ x ∧ x < (rowLenAt sheet y : Int))

/-- The cell string at `(x, y)`, assuming bounds were checked. -/
def cellAt (sheet : Sheet) (x y : Int) : String :=
  (sheet.getD y.toNat []).getD x.toNat ""

/-- `Location._get_cell_value`: the cell when in bounds, else Python `None`. -/
def getCell (sheet : Sheet) (x y : Int) : Option String :=
  if withinBounds sheet x y then some (cellAt sheet x y) else none

/-- Lift `_get_cell_value`'s result into `Val` (Python `None` included). -/
def cellVal : Option String → Val
  | some s => .str s
  | none => .pyNone

/-- Outcome of evaluating a navigation step or a whole rule on a grid:
a `Location` (Python: a truthy `Location`), "not found" (Python `None`),
loop non-termination (`fuelOut`), or a raised exception (`err`). -/
inductive FRes where
  | found (l : Location)
  | notFound
  | fuelOut
  | err (m : String)
deriving DecidableEq

/-- The longest row length in the grid. -/
def maxRowLen (sheet : Sheet) : Nat :=
  sheet.foldr (fun r m => max r.length m) 0

/-- Canonical fuel: enough steps for any unit-direction scan to leave the
grid (proved below). -/
def fuelB (sheet : Sheet) : Nat :=
  sheet.length + maxRowLen sheet + 2

/-- The loop of `Location.move`: step `(dx, dy)` exactly `moves` times,
checking bounds after every single step. -/
def moveAux (sheet : Sheet) (dx dy : Int) : Nat → Int → Int → Option (Int × Int)
  | 0, x, y => some (x, y)
  | n+1, x, y =>
      let x' := x + dx
      let y' := y + dy
      if withinBounds sheet x' y' then moveAux sheet dx dy n x' y' else none

/-- `Location.move(dx, dy, moves)`: raw positional jump.  Returns `none`
(Python `None`) as soon as any stepped coordinate is out of bounds;
otherwise a fresh `Location` at the destination whose value is refreshed
from the grid and whose prefix/suffix context is reset to the defaults.
A non-positive Python `moves` skips the loop; `moves : Nat` models that. -/
def Location.move (loc : Location) (dx dy : Int) (moves : Nat) : Option Location :=
  (moveAux loc.sheet dx dy moves loc.x loc.y).map fun p =>
    { x := p.1, y := p.2, value := cellVal (getCell loc.sheet p.1 p.2), sheet := loc.sheet }

/-- The loop of `Location._moveUntilValue` (with the default `moves=inf`):
step `(dx, dy)`, return `notFound` at the first out-of-bounds coordinate,
return a fresh `Location` at the first non-empty cell, else keep going. -/
def moveUntilValueAux (sheet : Sheet) (dx dy : Int) : Nat → Int → Int → FRes
  | 0, _, _ => .fuelOut
  | n+1, x, y =>
      let x' := x + dx
      let y' := y + dy
      if withinBounds sheet x' y' then
        let v := cellAt sheet x' y'
        if v ≠ "" then .found { x := x', y := y', value := .str v, sheet := sheet }
        else moveUntilValueAux sheet dx dy n x' y'
      else .notFound

/-- `Location._moveUntilValue(dx, dy)` at the canonical fuel. -/
def Location.moveUntilValue (loc : Location) (dx dy : Int) : FRes :=
  moveUntilValueAux loc.sheet dx dy (fuelB loc.sheet) loc.x loc.y

/-- `Location.goRight`. -/
def Location.goRight (loc : Location) : FRes := loc.moveUntilValue 1 0

/-- `Location.goBelow`. -/
def Location.goBelow (loc : Location) : FRes := loc.moveUntilValue 0 1

/-- The loop of `Location._moveUntil`: repeatedly `_moveUntilValue`,
returning the first found value satisfying `cond`. -/
def moveUntilAux (dx dy : Int) (cond : Val → Bool) : Nat → Location → FRes
  | 0, _ => .fuelOut
  | n+1, cur =>
      match cur.moveUntilValue dx dy with
      | .found c => if cond c.value then .found c else moveUntilAux dx dy cond n c
      | r => r

/-- `Location._moveUntil(dx, dy, condition)` at the canonical fuel. -/
def Location.moveUntil (loc : Location) (dx dy : Int) (cond : Val → Bool) : FRes :=
  moveUntilAux dx dy cond (fuelB loc.sheet) loc

/-- Python `str(...)` on the values a cursor can carry. -/
def pyStr : Val → String
  | .str s => s
  | .num q => toString q
  | .pyNone => "None"

/-- Python `str.startswith`. -/
def pyStartsWith (s p : String) : Bool :=
  p.data.isPrefixOf s.data

/-- Python slice `s[n:]` by characters. -/
def strDrop (s : String) (n : Nat) : String :=
  ⟨s.data.drop n⟩

/-- `Location.goRightUntilExact(target)`. -/
def Location.goRightUntilExact (loc : Location) (t : String) : FRes :=
  loc.moveUntil 1 0 (fun v => decide (v = .str t))

/-- `Location.goRightUntilPrefix(prefix)` (`Pfx` for the Lean keyword). -/
def Location.goRightUntilPfx (loc : Location) (p : String) : FRes :=
  loc.moveUntil 1 0 (fun v => pyStartsWith (pyStr v) p)

/-- `Location.goBelowUntilExact(target)`. -/
def Location.goBelowUntilExact (loc : Location) (t : String) : FRes :=
  loc.moveUntil 0 1 (fun v => decide (v = .str t))

/-- `Location.goBelowUntilPrefix(prefix)`. -/
def Location.goBelowUntilPfx (loc : Location) (p : String) : FRes :=
  loc.moveUntil 0 1 (fun v => pyStartsWith (pyStr v) p)

/-- The loop of `Location._moveUntilLastContinuousValue`: take raw single
steps while the next cell is in bounds and non-empty; return the last such
cell, or the starting cursor unchanged if the very first step fails. -/
def moveWhileContinuousAux (dx dy : Int) : Nat → Location → FRes
  | 0, _ => .fuelOut
  | n+1, cur =>
      match cur.move dx dy 1 with
      | none => .found cur
      | some nxt =>
          if nxt.value = .str "" then .found cur
          else moveWhileContinuousAux dx dy n nxt

/-- `Location._moveUntilLastContinuousValue(dx, dy)` at the canonical fuel. -/
def Location.moveUntilLastContinuousValue (loc : Location) (dx dy : Int) : FRes :=
  moveWhileContinuousAux dx dy (fuelB loc.sheet) loc

/-- Inner loop of `findExact`/`findPrefix`: first cell of `row` (from
index `x0` on) satisfying `p`, with its index. -/
def findInRow (p : String → Bool) : List String → Nat → Option (Nat × String)
  | [], _ => none
  | c :: rest, x0 => if p c then some (x0, c) else findInRow p rest (x0+1)

/-- Outer loop of `findExact`/`findPrefix`: row-major scan from row `y0`. -/
def findInSheet (p : String → Bool) : Sheet → Nat → Option (Nat × Nat × String)
  | [], _ => none
  | row :: rest, y0 =>
      match findInRow p row 0 with
      | some (x, c) => some (x, y0, c)
      | none => findInSheet p rest (y0+1)

/-- `findExact(value)`: first cell equal to the target, row-major. -/
def findExact (t : String) (sheet : Sheet) : FRes :=
  match findInSheet (fun c => decide (c = t)) sheet 0 with
  | some (x, y, c) => .found { x := (x : Int), y := (y : Int), value := .str c, sheet := sheet }
  | none => .notFound

/-- `findPrefix(prefix)` (`Pfx` for the Lean keyword): first cell starting
with the prefix; records the prefix and the remainder of the cell text. -/
def findPfx (p : String) (sheet : Sheet) : FRes :=
  match findInSheet (fun c => pyStartsWith c p) sheet 0 with
  | some (x, y, c) =>
      .found { x := (x : Int), y := (y : Int), value := .str c, sheet := sheet,
               pfx := p, sfx := strDrop c p.length }
  | none => .notFound

/-- The chainable steps of the `Finder` combinator, as the tagged step
descriptors of one rule (the `_chain`ed lambdas of the source, in order of
declaration there).  `modify`'s Python function may raise; a raising input
is modelled by `none`. -/
inductive Step where
  | move (dx dy : Int) (n : Nat)
  | goRightUntilValue
  | goBelowUntilValue
  | goRightUntilExact (t : String)
  | goRightUntilPfx (p : String)
  | goBelowUntilExact (t : String)
  | goBelowUntilPfx (p : String)
  | goRightUntilLastContinuousValue
  | goBelowUntilLastContinuousValue
  | getSuffix
  | modify (f : Val → Option Val)

/-- The lambda `_chain`ed by each `Finder` method, applied to a found
`Location`. -/
def applyStep : Step → Location → FRes
  | .move dx dy n, loc =>
      match loc.move dx dy n with
      | some l => .found l
      | none => .notFound
  | .goRightUntilValue, loc => loc.goRight
  | .goBelowUntilValue, loc => loc.goBelow
  | .goRightUntilExact t, loc => loc.goRightUntilExact t
  | .goRightUntilPfx p, loc => loc.goRightUntilPfx p
  | .goBelowUntilExact t, loc => loc.goBelowUntilExact t
  | .goBelowUntilPfx p, loc => loc.goBelowUntilPfx p
  | .goRightUntilLastContinuousValue, loc => loc.moveUntilLastContinuousValue 1 0
  | .goBelowUntilLastContinuousValue, loc => loc.moveUntilLastContinuousValue 0 1
  | .getSuffix, loc => .found { x := loc.x, y := loc.y, value := .str loc.sfx, sheet := loc.sheet }
  | .modify f, loc =>
      match f loc.value with
      | some v => .found { x := loc.x, y := loc.y, value := v, sheet := loc.sheet }
      | none => .err "transform raised"

/-- `Finder._chain` iterated: each step runs only on a found location
(`if loc:`); `None`, non-termination and exceptions all fall through. -/
def evalSteps (steps : List Step) (r : FRes) : FRes :=
  steps.foldl
    (fun acc st =>
      match acc with
      | .found loc => applyStep st loc
      | r => r)
    r

/-- The two search primitives a rule can start from. -/
inductive Prim where
  | exact (t : String)
  | pfxFind (p : String)

/-- Evaluate a search primitive on a grid. -/
def runPrim : Prim → Sheet → FRes
  | .exact t, s => findExact t s
  | .pfxFind p, s => findPfx p s

/-- A whole `Finder` rule — primitive plus chained steps — applied to a
grid, as `finder(sheet)` does. -/
def evalRule (p : Prim) (steps : List Step) (sheet : Sheet) : FRes :=
  evalSteps steps (runPrim p sheet)

/-- Value of digit characters, for the decimal parser below. -/
def digitsVal (l : List Char) : Nat :=
  l.foldl (fun a c => a * 10 + (c.toNat - 48)) 0

/-- Python `float(...)` on the strings this program feeds it, modelled on
plain decimal literals: optional sign, digits, optional fractional part.
Exotic accepted spellings (exponents, `inf`, `nan`, surrounding
whitespace) are not modelled; no claim depends on them.  `none` models the
`ValueError` Python raises on an unparsable string, and the `TypeError` on
`None`. -/
def pyFloat : Val → Option Rat
  | .num q => some q
  | .pyNone => none
  | .str s =>
      let l := s.data
      let sl : Int × List Char :=
        match l with
        | '-' :: rest => (-1, rest)
        | '+' :: rest => (1, rest)
        | _ => (1, l)
      match (sl.2.span fun c => c.isDigit) with
      | (intPart, []) =>
          if intPart.isEmpty then none
          else some ((sl.1 * (digitsVal intPart : Int) : Int) : Rat)
      | (intPart, '.' :: fracPart) =>
          if fracPart.all (fun c => c.isDigit) ∧ ¬(intPart.isEmpty ∧ fracPart.isEmpty) then
            some ((sl.1 : Rat) * ((digitsVal intPart : Rat)
              + (digitsVal fracPart : Rat) / ((10 : Rat) ^ fracPart.length)))
          else none
      | _ => none

/-- Python `round(q, 2)`, up to the tie-breaking rule (Python rounds
half-to-even on floats; no claim depends on ties). -/
def pyRound2 (q : Rat) : Rat :=
  (round (q * 100) : Int) / 100

/-- `PMV_AMOUNT = 1.21`. -/
def PMV_AMOUNT : Rat := 121 / 100

/-- `remove_pvm(value)`: `round(float(value) / PMV_AMOUNT, 2)`.  `none`
models the `ValueError` raised when `float(value)` fails. -/
def remove_pvm (v : Val) : Option Val :=
  (pyFloat v).map fun q => Val.num (pyRound2 (q / PMV_AMOUNT))

/-- Python `dict` insert (`row[k] = v`): update in place if the key
exists, else append. -/
def dictSet (row : List (String × Val)) (k : String) (v : Val) : List (String × Val) :=
  if row.any (fun kv => kv.1 == k) then
    row.map (fun kv => if kv.1 == k then (k, v) else kv)
  else row ++ [(k, v)]

/-- Python `dict` lookup. -/
def dictGet (row : List (String × Val)) (k : String) : Option Val :=
  (row.find? (fun kv => kv.1 == k)).map (fun kv => kv.2)

/-- The per-document loop body of `aggregate_csv_data` (lines 195–199):
starting from `{'Filename': filename}`, evaluate each `(column, rule)`
pair; a found location sets the column, `None` skips it, and a raised
exception (or a non-terminating rule) aborts the whole pass — Python has
no `try` around `value_fn(sheet)`. -/
def buildRowAux (sheet : Sheet) :
    List (String × (Sheet → FRes)) → List (String × Val) →
    Except String (List (String × Val))
  | [], row => .ok row
  | (nm, f) :: rest, row =>
      match f sheet with
      | .found loc => buildRowAux sheet rest (dictSet row nm loc.value)
      | .notFound => buildRowAux sheet rest row
      | .fuelOut => .error "nontermination"
      | .err m => .error m

/-- One output row for one document. -/
def buildRow (filename : String) (sheet : Sheet)
    (cols : List (String × (Sheet → FRes))) : Except String (List (String × Val)) :=
  buildRowAux sheet cols [("Filename", Val.str filename)]

/-- Did a rule evaluation complete normally (found or not-found)? -/
def FRes.isOk : FRes → Bool
  | .found _ => true
  | .notFound => true
  | _ => false

/-- The `"KAINA BE PVM"` rule of `parse_columns_data2`:
`findExact("Suma Eur").goBelowUntilLastContinuousValue().modify(remove_pvm)`. -/
def kainaBePvmRule : Sheet → FRes :=
  evalRule (.exact "Suma Eur") [.goBelowUntilLastContinuousValue, .modify remove_pvm]

/-- The four unit directions (`RIGHT`, `LEFT`, `DOWN`, `UP`). -/
inductive Dir where
  | right | left | down | up
deriving DecidableEq

/-- `dx` of a direction constant. -/
def Dir.dx : Dir → Int
  | .right => 1 | .left => -1 | .down => 0 | .up => 0

/-- `dy` of a direction constant. -/
def Dir.dy : Dir → Int
  | .right => 0 | .left => 0 | .down => 1 | .up => -1

/-- The opposite unit direction. -/
def Dir.opposite : Dir → Dir
  | .right => .left | .left => .right | .down => .up | .up => .down

/-- Steps remaining before a scan in direction `d` from `(x, y)` must
leave the grid: the termination measure of the navigation loops. -/
def escape (sheet : Sheet) (d : Dir) (x y : Int) : Nat :=
  match d with
  | .down => ((sheet.length : Int) - y).toNat
  | .up => (y + 1).toNat
  | .right => ((rowLenAt sheet y : Int) - x).toNat
  | .left => (x + 1).toNat

/-- The jagged grid refuting C2 and C3: column 1 exists in rows 0 and 2
but not in row 1. -/
def cxSheet : Sheet := [["a", "b"], ["c"], ["d", "e"]]

/-- Concrete cursor for the C2 witness. -/
def w2loc : Location := { x := 0, y := 0, value := .str "a", sheet := [["a", "b"]] }

/-- The grid refuting C4: the prefix hit `"ab cd"` has an empty right
neighbour, so the continuous-run step takes zero steps. -/
def c4Sheet : Sheet := [["ab cd", ""]]

/-- The grid of the C5 scenario. -/
def c5Sheet : Sheet := [["Invoice No: 12345"]]

/-- Concrete cursor for the C6 witness: a lone cell whose right neighbour
is out of bounds. -/
def w6loc : Location := { x := 0, y := 0, value := .str "x", sheet := [["x"]] }

/-- The rule set for the C9 witness: one matching and one unmatched rule. -/
def w9cols : List (String × (Sheet → FRes)) :=
  [("A", findExact "x"), ("B", findExact "zz")]

/-- Cursor for the C10 witness. -/
def w10loc : Location := { x := 0, y := 0, value := .str "a", sheet := [["a"], ["b"]] }

/-- Predicate for the C10 witness: a prefix no cell carries. -/
def w10cond : Val → Bool := fun v => pyStartsWith (pyStr v) "Z"

/-! ## Basic lemmas about bounds and the termination measure -/

lemma getD_mem {α : Type} : ∀ (l : List α) (n : Nat) (d : α), n < l.length → l.getD n d ∈ l := by
  intro l
  induction l with
  | nil => intro n d h; simp at h
  | cons a t ih =>
      intro n d h
      cases n with
      | zero => simp [List.getD]
      | succ n =>
          have := ih n d (by simpa using h)
          simp only [List.getD] at this ⊢
          exact List.mem_cons_of_mem a this

lemma getD_len_le : ∀ (s : Sheet) (n : Nat), (s.getD n []).length ≤ maxRowLen s := by
  intro s
  induction s with
  | nil => intro n; simp [List.getD, maxRowLen]
  | cons r t ih =>
      intro n
      cases n with
      | zero => simp [List.getD, maxRowLen]
      | succ n =>
          refine le_trans ?_ (le_max_right r.length (maxRowLen t))
          simpa [List.getD, maxRowLen] using ih n

lemma rowLenAt_le (sheet : Sheet) (y : Int) : rowLenAt sheet y ≤ maxRowLen sheet :=
  getD_len_le sheet y.toNat

lemma withinBounds_iff {sheet : Sheet} {x y : Int} :
    withinBounds sheet x y = true ↔
      0 ≤ y ∧ y < (sheet.length : Int) ∧ 0 ≤ x ∧ x < (rowLenAt sheet y : Int) := by
  simp [withinBounds]

lemma cellAt_mem {sheet : Sheet} {x y : Int} (h : withinBounds sheet x y = true) :
    ∃ row ∈ sheet, cellAt sheet x y ∈ row := by
  rw [withinBounds_iff] at h
  refine ⟨sheet.getD y.toNat [], getD_mem sheet y.toNat [] (by omega), ?_⟩
  exact getD_mem _ x.toNat "" (by have := h.2.2.2; unfold rowLenAt at this; omega)

lemma escape_le_of_within {sheet : Sheet} {x y : Int} (d : Dir)
    (h : withinBounds sheet x y = true) :
    escape sheet d x y ≤ sheet.length + maxRowLen sheet := by
  rw [withinBounds_iff] at h
  have hr := rowLenAt_le sheet y
  cases d <;> simp only [escape] <;> omega

lemma escape_lt_fuelB {sheet : Sheet} {x y : Int} (d : Dir)
    (h : withinBounds sheet x y = true) :
    escape sheet d x y < fuelB sheet := by
  have := escape_le_of_within d h
  unfold fuelB
  omega

lemma escape_step {sheet : Sheet} (d : Dir) {x y : Int}
    (h : withinBounds sheet (x + d.dx) (y + d.dy) = true) :
    escape sheet d (x + d.dx) (y + d.dy) < escape sheet d x y := by
  rw [withinBounds_iff] at h
  cases d <;>
    simp only [escape, Dir.dx, Dir.dy, add_zero] at h ⊢ <;>
    omega

/-! ## Characterization of `Location.move` (raw positional jump) -/

lemma moveAux_eq_some {sheet : Sheet} {dx dy : Int} :
    ∀ (n : Nat) (x y : Int) (p : Int × Int),
      moveAux sheet dx dy n x y = some p →
      p = (x + n * dx, y + n * dy) ∧
        ∀ i : Int, 1 ≤ i → i ≤ n → withinBounds sheet (x + i * dx) (y + i * dy) = true := by
  intro n
  induction n with
  | zero =>
      intro x y p h
      simp only [moveAux, Option.some.injEq] at h
      refine ⟨by simp [← h], ?_⟩
      intro i h1 h2
      omega
  | succ n ih =>
      intro x y p h
      simp only [moveAux] at h
      split at h
      · rename_i hw
        obtain ⟨hp, hall⟩ := ih (x + dx) (y + dy) p h
        constructor
        · rw [hp, Prod.mk.injEq]
          constructor <;> push_cast <;> ring
        · intro i h1 h2
          by_cases hi : i = 1
          · subst hi
            simpa using hw
          · have h1' : 1 ≤ i - 1 := by omega
            have h2' : i - 1 ≤ (n : Int) := by push_cast at h2 ⊢; omega
            have := hall (i - 1) h1' h2'
            have e1 : x + dx + (i - 1) * dx = x + i * dx := by ring
            have e2 : y + dy + (i - 1) * dy = y + i * dy := by ring
            rwa [e1, e2] at this
      · exact absurd h (by simp)

lemma moveAux_some_of {sheet : Sheet} {dx dy : Int} :
    ∀ (n : Nat) (x y : Int),
      (∀ i : Int, 1 ≤ i → i ≤ n → withinBounds sheet (x + i * dx) (y + i * dy) = true) →
      moveAux sheet dx dy n x y = some (x + n * dx, y + n * dy) := by
  intro n
  induction n with
  | zero =>
      intro x y _
      simp [moveAux]
  | succ n ih =>
      intro x y hall
      simp only [moveAux]
      have hw : withinBounds sheet (x + dx) (y + dy) = true := by
        have := hall 1 le_rfl (by push_cast; omega)
        simpa using this
      rw [if_pos hw]
      have := ih (x + dx) (y + dy) (by
        intro i h1 h2
        have := hall (i + 1) (by omega) (by push_cast; omega)
        have e1 : x + (i + 1) * dx = x + dx + i * dx := by ring
        have e2 : y + (i + 1) * dy = y + dy + i * dy := by ring
        rwa [e1, e2] at this)
      rw [this]
      congr 2 <;> push_cast <;> ring

/-- One raw step: in closed form. -/
lemma move_one (loc : Location) (dx dy : Int) :
    loc.move dx dy 1 =
      if withinBounds loc.sheet (loc.x + dx) (loc.y + dy) then
        some { x := loc.x + dx, y := loc.y + dy,
               value := .str (cellAt loc.sheet (loc.x + dx) (loc.y + dy)),
               sheet := loc.sheet }
      else none := by
  have h1 : moveAux loc.sheet dx dy 1 loc.x loc.y =
      if withinBounds loc.sheet (loc.x + dx) (loc.y + dy) then
        some (loc.x + dx, loc.y + dy)
      else none := rfl
  unfold Location.move
  rw [h1]
  by_cases hw : withinBounds loc.sheet (loc.x + dx) (loc.y + dy) = true
  · simp [hw, getCell, cellVal]
  · simp [hw]

/-! ## The `_moveUntilValue` loop: found results and termination -/

lemma mUVA_found {sheet : Sheet} {dx dy : Int} :
    ∀ (fuel : Nat) (x y : Int) (l : Location),
      moveUntilValueAux sheet dx dy fuel x y = .found l →
      l.sheet = sheet ∧ withinBounds sheet l.x l.y = true ∧
        l.value = .str (cellAt sheet l.x l.y) ∧ cellAt sheet l.x l.y ≠ "" ∧
        l.pfx = "" ∧ l.sfx = "" := by
  intro fuel
  induction fuel with
  | zero => intro x y l h; simp [moveUntilValueAux] at h
  | succ n ih =>
      intro x y l h
      simp only [moveUntilValueAux] at h
      split at h
      · rename_i hw
        split at h
        · rename_i hv
          simp only [FRes.found.injEq] at h
          subst h
          exact ⟨rfl, hw, rfl, hv, rfl, rfl⟩
        · exact ih (x + dx) (y + dy) l h
      · simp at h

lemma mUVA_found_escape {sheet : Sheet} {d : Dir} :
    ∀ (fuel : Nat) (x y : Int) (l : Location),
      moveUntilValueAux sheet d.dx d.dy fuel x y = .found l →
      escape sheet d l.x l.y < escape sheet d x y := by
  intro fuel
  induction fuel with
  | zero => intro x y l h; simp [moveUntilValueAux] at h
  | succ n ih =>
      intro x y l h
      simp only [moveUntilValueAux] at h
      split at h
      · rename_i hw
        split at h
        · simp only [FRes.found.injEq] at h
          subst h
          exact escape_step d hw
        · exact lt_trans (ih (x + d.dx) (y + d.dy) l h) (escape_step d hw)
      · simp at h

lemma mUVA_ne_fuelOut {sheet : Sheet} {d : Dir} :
    ∀ (fuel : Nat) (x y : Int),
      escape sheet d x y < fuel →
      moveUntilValueAux sheet d.dx d.dy fuel x y ≠ .fuelOut := by
  intro fuel
  induction fuel with
  | zero => intro x y h; omega
  | succ n ih =>
      intro x y h
      simp only [moveUntilValueAux]
      split
      · rename_i hw
        split
        · simp
        · refine ih (x + d.dx) (y + d.dy) ?_
          have := escape_step d hw
          omega
      · simp

lemma mUVA_ne_err {sheet : Sheet} {dx dy : Int} :
    ∀ (fuel : Nat) (x y : Int) (m : String),
      moveUntilValueAux sheet dx dy fuel x y ≠ .err m := by
  intro fuel
  induction fuel with
  | zero => intro x y m; simp [moveUntilValueAux]
  | succ n ih =>
      intro x y m
      simp only [moveUntilValueAux]
      split
      · split
        · simp
        · exact ih (x + dx) (y + dy) m
      · simp

/-- At the canonical fuel, the `_moveUntilValue` loop terminates from any
start, in any of the four unit directions. -/
lemma mUVA_total {sheet : Sheet} (d : Dir) (x y : Int) :
    moveUntilValueAux sheet d.dx d.dy (fuelB sheet) x y ≠ .fuelOut := by
  have h2 : fuelB sheet = (sheet.length + maxRowLen sheet + 1) + 1 := rfl
  rw [h2]
  simp only [moveUntilValueAux]
  split
  · rename_i hw
    split
    · simp
    · split
      · rename_i hw2
        split
        · simp
        · refine mUVA_ne_fuelOut _ _ _ ?_
          have ha := escape_step d hw2
          have hb := escape_le_of_within d hw
          omega
      · simp
  · simp

/-! ## The `_moveUntil` loop -/

lemma mUA_succ (dx dy : Int) (cond : Val → Bool) (n : Nat) (cur : Location) :
    moveUntilAux dx dy cond (n+1) cur =
      match cur.moveUntilValue dx dy with
      | .found c => if cond c.value then .found c else moveUntilAux dx dy cond n c
      | r => r := rfl

lemma mUA_found {dx dy : Int} {cond : Val → Bool} :
    ∀ (fuel : Nat) (cur r : Location),
      moveUntilAux dx dy cond fuel cur = .found r →
      r.sheet = cur.sheet ∧ withinBounds cur.sheet r.x r.y = true ∧
        r.value = .str (cellAt cur.sheet r.x r.y) ∧ cellAt cur.sheet r.x r.y ≠ "" ∧
        r.pfx = "" ∧ r.sfx = "" ∧ cond r.value = true := by
  intro fuel
  induction fuel with
  | zero => intro cur r h; simp [moveUntilAux] at h
  | succ n ih =>
      intro cur r h
      rw [mUA_succ] at h
      cases hres : cur.moveUntilValue dx dy with
      | found c =>
          simp only [hres] at h
          have hc := mUVA_found (fuelB cur.sheet) cur.x cur.y c hres
          split at h
          · rename_i hcond
            simp only [FRes.found.injEq] at h
            subst h
            exact ⟨hc.1, hc.2.1, hc.2.2.1, hc.2.2.2.1, hc.2.2.2.2.1, hc.2.2.2.2.2, hcond⟩
          · have hr := ih c r h
            rw [hc.1] at hr
            exact hr
      | notFound => simp [hres] at h
      | fuelOut => simp [hres] at h
      | err m => exact absurd hres (mUVA_ne_err _ _ _ m)

/-- A found result of the `_moveUntilValue` loop lies on the scan ray: a
positive number of `(dx, dy)` steps from the start. -/
lemma mUVA_found_offset {sheet : Sheet} {dx dy : Int} :
    ∀ (fuel : Nat) (x y : Int) (l : Location),
      moveUntilValueAux sheet dx dy fuel x y = .found l →
      ∃ m : Int, 1 ≤ m ∧ l.x = x + m * dx ∧ l.y = y + m * dy := by
  intro fuel
  induction fuel with
  | zero => intro x y l h; simp [moveUntilValueAux] at h
  | succ n ih =>
      intro x y l h
      simp only [moveUntilValueAux] at h
      split at h
      · split at h
        · simp only [FRes.found.injEq] at h
          subst h
          exact ⟨1, le_rfl, by simp, by simp⟩
        · obtain ⟨m, h1, h2, h3⟩ := ih (x + dx) (y + dy) l h
          refine ⟨m + 1, by omega, ?_, ?_⟩
          · rw [h2]; ring
          · rw [h3]; ring
      · simp at h

/-- The `_moveUntil` loop returns "not found" when no in-bounds cell on
the scan ray out of `(x0, y0)` satisfies the predicate; `cur` is the
loop's current cursor, `j ≥ 0` steps along that ray. -/
lemma mUA_notFound_ray {sheet : Sheet} {d : Dir} {cond : Val → Bool} (x0 y0 : Int)
    (H : ∀ i : Int, 1 ≤ i →
      withinBounds sheet (x0 + i * d.dx) (y0 + i * d.dy) = true →
      cond (.str (cellAt sheet (x0 + i * d.dx) (y0 + i * d.dy))) = false) :
    ∀ (fuel : Nat) (cur : Location) (j : Int), cur.sheet = sheet → 0 ≤ j →
      cur.x = x0 + j * d.dx → cur.y = y0 + j * d.dy →
      escape sheet d cur.x cur.y < fuel →
      moveUntilAux d.dx d.dy cond fuel cur = .notFound := by
  intro fuel
  induction fuel with
  | zero => intro cur j hs hj hx hy h; omega
  | succ n ih =>
      intro cur j hs hj hx hy h
      rw [mUA_succ]
      cases hres : cur.moveUntilValue d.dx d.dy with
      | found c =>
          simp only
          have hc := mUVA_found (fuelB cur.sheet) cur.x cur.y c hres
          rw [hs] at hc
          obtain ⟨m, hm1, hmx, hmy⟩ :=
            mUVA_found_offset (fuelB cur.sheet) cur.x cur.y c hres
          have hcx : c.x = x0 + (j + m) * d.dx := by rw [hmx, hx]; ring
          have hcy : c.y = y0 + (j + m) * d.dy := by rw [hmy, hy]; ring
          have hwit : withinBounds sheet (x0 + (j + m) * d.dx)
              (y0 + (j + m) * d.dy) = true := by
            rw [← hcx, ← hcy]
            exact hc.2.1
          have hcond : cond c.value = false := by
            rw [hc.2.2.1, hcx, hcy]
            exact H (j + m) (by omega) hwit
          rw [if_neg (by simp [hcond])]
          refine ih c (j + m) hc.1 (by omega) hcx hcy ?_
          have he : escape sheet d c.x c.y < escape sheet d cur.x cur.y := by
            have h' : moveUntilValueAux sheet d.dx d.dy (fuelB cur.sheet) cur.x cur.y
                = .found c := by
              rw [← hs]; exact hres
            exact mUVA_found_escape _ _ _ _ h'
          omega
      | notFound => simp
      | fuelOut =>
          exact absurd hres (by
            rw [Location.moveUntilValue, hs]
            exact mUVA_total d cur.x cur.y)
      | err m => exact absurd hres (mUVA_ne_err _ _ _ m)

/-! ## The `_moveUntilLastContinuousValue` loop -/

lemma move_pfx_sfx {loc l : Location} {dx dy : Int} {n : Nat}
    (h : loc.move dx dy n = some l) :
    l.pfx = "" ∧ l.sfx = "" ∧ l.sheet = loc.sheet := by
  unfold Location.move at h
  cases hp : moveAux loc.sheet dx dy n loc.x loc.y with
  | none => rw [hp] at h; simp at h
  | some p =>
      rw [hp] at h
      simp only [Option.map_some', Option.some.injEq] at h
      rw [← h]
      exact ⟨rfl, rfl, rfl⟩

lemma cont_succ (dx dy : Int) (n : Nat) (cur : Location) :
    moveWhileContinuousAux dx dy (n+1) cur =
      match cur.move dx dy 1 with
      | none => .found cur
      | some nxt =>
          if nxt.value = .str "" then .found cur
          else moveWhileContinuousAux dx dy n nxt := rfl

lemma cont_step_none {dx dy : Int} {n : Nat} {cur : Location}
    (h : cur.move dx dy 1 = none) :
    moveWhileContinuousAux dx dy (n+1) cur = .found cur := by
  rw [cont_succ, h]

lemma cont_step_some {dx dy : Int} {n : Nat} {cur nxt : Location}
    (h : cur.move dx dy 1 = some nxt) :
    moveWhileContinuousAux dx dy (n+1) cur =
      if nxt.value = .str "" then .found cur
      else moveWhileContinuousAux dx dy n nxt := by
  rw [cont_succ, h]

lemma contAux_found {dx dy : Int} :
    ∀ (fuel : Nat) (cur r : Location),
      moveWhileContinuousAux dx dy fuel cur = .found r →
      r = cur ∨ (r.sheet = cur.sheet ∧ withinBounds cur.sheet r.x r.y = true ∧
                 r.pfx = "" ∧ r.sfx = "") := by
  intro fuel
  induction fuel with
  | zero => intro cur r h; simp [moveWhileContinuousAux] at h
  | succ n ih =>
      intro cur r h
      cases hm : cur.move dx dy 1 with
      | none =>
          rw [cont_step_none hm] at h
          simp only [FRes.found.injEq] at h
          exact Or.inl h.symm
      | some nxt =>
          rw [cont_step_some hm] at h
          split at h
          · simp only [FRes.found.injEq] at h
            exact Or.inl h.symm
          · have hnxt := move_pfx_sfx hm
            have hnw : withinBounds cur.sheet nxt.x nxt.y = true := by
              rw [move_one] at hm
              split at hm
              · rename_i hw
                simp only [Option.some.injEq] at hm
                rw [← hm]
                exact hw
              · simp at hm
            rcases ih nxt r h with he | ⟨h1, h2, h3, h4⟩
            · subst he
              exact Or.inr ⟨hnxt.2.2, hnw, hnxt.1, hnxt.2.1⟩
            · rw [hnxt.2.2] at h1 h2
              exact Or.inr ⟨h1, h2, h3, h4⟩

/-- Full characterization of the continuous-run scan: it always succeeds,
returning the cell `k` raw steps away, where steps `1..k` land on
in-bounds non-empty cells and step `k+1` would hit an empty or
out-of-bounds cell; `k = 0` returns the starting cursor unchanged. -/
lemma contAux_char {sheet : Sheet} (d : Dir) :
    ∀ (fuel : Nat) (cur : Location), cur.sheet = sheet →
      escape sheet d cur.x cur.y < fuel →
      ∃ (r : Location) (k : Nat), moveWhileContinuousAux d.dx d.dy fuel cur = .found r ∧
        r.x = cur.x + (k : Int) * d.dx ∧ r.y = cur.y + (k : Int) * d.dy ∧
        (∀ i : Int, 1 ≤ i → i ≤ (k : Int) →
          withinBounds sheet (cur.x + i * d.dx) (cur.y + i * d.dy) = true ∧
          cellAt sheet (cur.x + i * d.dx) (cur.y + i * d.dy) ≠ "") ∧
        (withinBounds sheet (cur.x + ((k : Int)+1) * d.dx) (cur.y + ((k : Int)+1) * d.dy) = false ∨
          cellAt sheet (cur.x + ((k : Int)+1) * d.dx) (cur.y + ((k : Int)+1) * d.dy) = "") ∧
        (k = 0 → r = cur) ∧
        (0 < k → r.value = .str (cellAt sheet r.x r.y) ∧ r.sheet = sheet ∧
          r.pfx = "" ∧ r.sfx = "") := by
  intro fuel
  induction fuel with
  | zero => intro cur hs hf; omega
  | succ n ih =>
      intro cur hs hf
      by_cases hw : withinBounds cur.sheet (cur.x + d.dx) (cur.y + d.dy) = true
      · have hm : cur.move d.dx d.dy 1 =
            some { x := cur.x + d.dx, y := cur.y + d.dy,
                   value := .str (cellAt cur.sheet (cur.x + d.dx) (cur.y + d.dy)),
                   sheet := cur.sheet } := by
          rw [move_one, if_pos hw]
        by_cases hv : cellAt cur.sheet (cur.x + d.dx) (cur.y + d.dy) = ""
        · refine ⟨cur, 0, ?_, by simp, by simp, by intro i h1 h2; omega, ?_, fun _ => rfl,
            by omega⟩
          · rw [cont_step_some hm, if_pos (by simp [hv])]
          · right
            rw [← hs]
            simpa using hv
        · set nxt : Location :=
            { x := cur.x + d.dx, y := cur.y + d.dy,
              value := .str (cellAt cur.sheet (cur.x + d.dx) (cur.y + d.dy)),
              sheet := cur.sheet } with hnxt
          have hw' : withinBounds sheet (cur.x + d.dx) (cur.y + d.dy) = true := by
            rwa [hs] at hw
          have hesc : escape sheet d nxt.x nxt.y < n := by
            have h1 := escape_step d hw'
            have h2 : nxt.x = cur.x + d.dx := rfl
            have h3 : nxt.y = cur.y + d.dy := rfl
            rw [h2, h3]
            omega
          obtain ⟨r, k', hr, hrx, hry, hall, hstop, hzero, hpos⟩ := ih nxt hs hesc
          have hnx : nxt.x = cur.x + d.dx := rfl
          have hny : nxt.y = cur.y + d.dy := rfl
          refine ⟨r, k' + 1, ?_, ?_, ?_, ?_, ?_, by omega, ?_⟩
          · rw [cont_step_some hm, if_neg (by simp [hv])]
            exact hr
          · rw [hrx, hnx]; push_cast; ring
          · rw [hry, hny]; push_cast; ring
          · intro i h1 h2
            by_cases hi : i = 1
            · subst hi
              constructor
              · simpa using hw'
              · rw [hs] at hv
                simpa using hv
            · have := hall (i - 1) (by omega) (by push_cast at h2 ⊢; omega)
              rw [hnx, hny] at this
              have e1 : cur.x + d.dx + (i - 1) * d.dx = cur.x + i * d.dx := by ring
              have e2 : cur.y + d.dy + (i - 1) * d.dy = cur.y + i * d.dy := by ring
              rwa [e1, e2] at this
          · rw [hnx, hny] at hstop
            have e1 : cur.x + d.dx + ((k' : Int) + 1) * d.dx = cur.x + ((k' : Int) + 1 + 1) * d.dx := by
              ring
            have e2 : cur.y + d.dy + ((k' : Int) + 1) * d.dy = cur.y + ((k' : Int) + 1 + 1) * d.dy := by
              ring
            rw [e1, e2] at hstop
            have e3 : ((k' + 1 : Nat) : Int) + 1 = (k' : Int) + 1 + 1 := by push_cast; ring
            rw [e3]
            exact hstop
          · intro _
            rcases Nat.eq_zero_or_pos k' with hk | hk
            · have hre := hzero hk
              subst hre
              refine ⟨?_, hs, rfl, rfl⟩
              rw [hnxt]
              simp only
              rw [hs]
            · exact hpos hk
      · refine ⟨cur, 0, ?_, by simp, by simp, by intro i h1 h2; omega, ?_, fun _ => rfl,
          by omega⟩
        · rw [cont_step_none (by rw [move_one, if_neg hw])]
        · left
          rw [← hs]
          simp only [Nat.cast_zero, zero_add, one_mul]
          exact Bool.not_eq_true _ ▸ (by simpa using hw)

/-! ## Search primitives -/

lemma findInRow_some {pred : String → Bool} :
    ∀ (row : List String) (x0 x : Nat) (c : String),
      findInRow pred row x0 = some (x, c) →
      x0 ≤ x ∧ x - x0 < row.length ∧ row.getD (x - x0) "" = c ∧ pred c = true := by
  intro row
  induction row with
  | nil => intro x0 x c h; simp [findInRow] at h
  | cons a t ih =>
      intro x0 x c h
      simp only [findInRow] at h
      split at h
      · rename_i hp
        simp only [Option.some.injEq, Prod.mk.injEq] at h
        obtain ⟨h1, h2⟩ := h
        subst h1; subst h2
        exact ⟨le_rfl, by simp, by simp [List.getD], hp⟩
      · obtain ⟨h1, h2, h3, h4⟩ := ih (x0+1) x c h
        refine ⟨by omega, by simp; omega, ?_, h4⟩
        have e : x - x0 = (x - (x0+1)) + 1 := by omega
        rw [e]
        simpa [List.getD] using h3

lemma findInSheet_some {pred : String → Bool} :
    ∀ (rows : Sheet) (y0 y x : Nat) (c : String),
      findInSheet pred rows y0 = some (x, y, c) →
      y0 ≤ y ∧ y - y0 < rows.length ∧ x < (rows.getD (y - y0) []).length ∧
        (rows.getD (y - y0) []).getD x "" = c ∧ pred c = true := by
  intro rows
  induction rows with
  | nil => intro y0 y x c h; simp [findInSheet] at h
  | cons row rest ih =>
      intro y0 y x c h
      simp only [findInSheet] at h
      cases hr : findInRow pred row 0 with
      | some p =>
          rw [hr] at h
          simp only [Option.some.injEq, Prod.mk.injEq] at h
          obtain ⟨h1, h2, h3⟩ := h
          subst h1; subst h2; subst h3
          obtain ⟨_, h2, h3, h4⟩ := findInRow_some row 0 p.1 p.2 (by rw [hr])
          simp only [Nat.sub_zero] at h2 h3
          exact ⟨le_rfl, by simp, by simpa [List.getD] using h2,
            by simpa [List.getD] using h3, h4⟩
      | none =>
          rw [hr] at h
          obtain ⟨h1, h2, h3, h4, h5⟩ := ih (y0+1) y x c h
          refine ⟨by omega, by simp; omega, ?_, ?_, h5⟩
          · have e : y - y0 = (y - (y0+1)) + 1 := by omega
            rw [e]
            simpa [List.getD] using h3
          · have e : y - y0 = (y - (y0+1)) + 1 := by omega
            rw [e]
            simpa [List.getD] using h4

/-- From a row-major search hit, the in-bounds cell it names. -/
lemma findInSheet_cell {pred : String → Bool} {sheet : Sheet} {x y : Nat} {c : String}
    (h : findInSheet pred sheet 0 = some (x, y, c)) :
    withinBounds sheet (x : Int) (y : Int) = true ∧
      cellAt sheet (x : Int) (y : Int) = c ∧ pred c = true := by
  obtain ⟨_, h2, h3, h4, h5⟩ := findInSheet_some sheet 0 y x c h
  simp only [Nat.sub_zero] at h2 h3 h4
  have ht : ((y : Int)).toNat = y := Int.toNat_natCast y
  have htx : ((x : Int)).toNat = x := Int.toNat_natCast x
  refine ⟨?_, ?_, h5⟩
  · rw [withinBounds_iff]
    refine ⟨by positivity, by exact_mod_cast h2, by positivity, ?_⟩
    unfold rowLenAt
    rw [ht]
    exact_mod_cast h3
  · unfold cellAt
    rw [ht, htx]
    exact h4

lemma runPrim_found {p : Prim} {sheet : Sheet} {l : Location}
    (h : runPrim p sheet = .found l) :
    l.sheet = sheet ∧ withinBounds sheet l.x l.y = true := by
  cases p with
  | exact t =>
      simp only [runPrim, findExact] at h
      cases hfs : findInSheet (fun c => decide (c = t)) sheet 0 with
      | none => rw [hfs] at h; simp at h
      | some v =>
          obtain ⟨x, y, c⟩ := v
          rw [hfs] at h
          simp only [FRes.found.injEq] at h
          obtain ⟨hw, _, _⟩ := findInSheet_cell hfs
          rw [← h]
          exact ⟨rfl, hw⟩
  | pfxFind pre =>
      simp only [runPrim, findPfx] at h
      cases hfs : findInSheet (fun c => pyStartsWith c pre) sheet 0 with
      | none => rw [hfs] at h; simp at h
      | some v =>
          obtain ⟨x, y, c⟩ := v
          rw [hfs] at h
          simp only [FRes.found.injEq] at h
          obtain ⟨hw, _, _⟩ := findInSheet_cell hfs
          rw [← h]
          exact ⟨rfl, hw⟩

/-- What `findPrefix` records on a hit. -/
lemma findPfx_found {p : String} {sheet : Sheet} {l : Location}
    (h : findPfx p sheet = .found l) :
    l.sheet = sheet ∧ withinBounds sheet l.x l.y = true ∧
      pyStartsWith (cellAt sheet l.x l.y) p = true ∧
      l.value = .str (cellAt sheet l.x l.y) ∧
      l.pfx = p ∧ l.sfx = strDrop (cellAt sheet l.x l.y) p.length := by
  unfold findPfx at h
  cases hfs : findInSheet (fun c => pyStartsWith c p) sheet 0 with
  | none => rw [hfs] at h; simp at h
  | some v =>
      obtain ⟨x, y, c⟩ := v
      rw [hfs] at h
      simp only [FRes.found.injEq] at h
      obtain ⟨hw, hc, hp⟩ := findInSheet_cell hfs
      rw [← h]
      refine ⟨rfl, hw, ?_, ?_, rfl, ?_⟩
      · rw [hc]; exact hp
      · rw [hc]
      · rw [hc]

/-- If a cell starts with a prefix, the cell is that prefix followed by
the recorded remainder. -/
lemma startsWith_eq_append {c p : String} (h : pyStartsWith c p = true) :
    p ++ strDrop c p.length = c := by
  unfold pyStartsWith at h
  have hpre : p.data <+: c.data := List.isPrefixOf_iff_prefix.mp h
  obtain ⟨t, ht⟩ := hpre
  have hd : strDrop c p.length = ⟨t⟩ := by
    unfold strDrop
    congr 1
    rw [show String.length p = p.data.length from rfl, ← ht, List.drop_left]
  rw [hd]
  apply String.ext
  show p.data ++ t = c.data
  exact ht

/-! ## The rule-combinator layer -/

lemma move_wf {loc l : Location} {dx dy : Int} {n : Nat}
    (hw : withinBounds loc.sheet loc.x loc.y = true)
    (h : loc.move dx dy n = some l) :
    withinBounds loc.sheet l.x l.y = true := by
  unfold Location.move at h
  cases hp : moveAux loc.sheet dx dy n loc.x loc.y with
  | none => rw [hp] at h; simp at h
  | some p =>
      rw [hp] at h
      simp only [Option.map_some', Option.some.injEq] at h
      obtain ⟨hpe, hall⟩ := moveAux_eq_some n loc.x loc.y p hp
      cases n with
      | zero =>
          rw [← h]
          simp only
          have hpl : p = (loc.x, loc.y) := by simpa using hpe
          rw [hpl]
          exact hw
      | succ m =>
          have hin := hall ((m+1 : Nat) : Int) (by push_cast; omega) le_rfl
          rw [← h]
          simp only
          rw [hpe]
          exact hin

lemma applyStep_wf {sheet : Sheet} {st : Step} {loc r : Location}
    (hs : loc.sheet = sheet) (hw : withinBounds sheet loc.x loc.y = true)
    (h : applyStep st loc = .found r) :
    r.sheet = sheet ∧ withinBounds sheet r.x r.y = true := by
  cases st with
  | move dx dy n =>
      simp only [applyStep] at h
      cases hm : loc.move dx dy n with
      | none => rw [hm] at h; simp at h
      | some l =>
          rw [hm] at h
          simp only [FRes.found.injEq] at h
          subst h
          have h1 := move_pfx_sfx hm
          have h2 := move_wf (by rwa [hs]) hm
          rw [hs] at h1 h2
          exact ⟨h1.2.2, h2⟩
  | goRightUntilValue =>
      have hc := mUVA_found (fuelB loc.sheet) loc.x loc.y r h
      rw [hs] at hc
      exact ⟨hc.1, hc.2.1⟩
  | goBelowUntilValue =>
      have hc := mUVA_found (fuelB loc.sheet) loc.x loc.y r h
      rw [hs] at hc
      exact ⟨hc.1, hc.2.1⟩
  | goRightUntilExact t =>
      have hc := mUA_found _ _ _ h
      rw [hs] at hc
      exact ⟨hc.1, hc.2.1⟩
  | goRightUntilPfx p =>
      have hc := mUA_found _ _ _ h
      rw [hs] at hc
      exact ⟨hc.1, hc.2.1⟩
  | goBelowUntilExact t =>
      have hc := mUA_found _ _ _ h
      rw [hs] at hc
      exact ⟨hc.1, hc.2.1⟩
  | goBelowUntilPfx p =>
      have hc := mUA_found _ _ _ h
      rw [hs] at hc
      exact ⟨hc.1, hc.2.1⟩
  | goRightUntilLastContinuousValue =>
      rcases contAux_found _ _ _ h with he | ⟨h1, h2, _, _⟩
      · subst he; exact ⟨hs, hw⟩
      · rw [hs] at h1 h2; exact ⟨h1, h2⟩
  | goBelowUntilLastContinuousValue =>
      rcases contAux_found _ _ _ h with he | ⟨h1, h2, _, _⟩
      · subst he; exact ⟨hs, hw⟩
      · rw [hs] at h1 h2; exact ⟨h1, h2⟩
  | getSuffix =>
      simp only [applyStep, FRes.found.injEq] at h
      subst h
      exact ⟨hs, hw⟩
  | modify f =>
      simp only [applyStep] at h
      cases hf : f loc.value with
      | some v =>
          rw [hf] at h
          simp only [FRes.found.injEq] at h
          subst h
          exact ⟨hs, hw⟩
      | none => rw [hf] at h; simp at h

/-- Every chained step except a zero-length continuous run builds its
result cursor with empty matched-prefix/suffix context; the continuous
run may instead return the starting cursor itself, untouched. -/
lemma applyStep_clears {st : Step} {loc r : Location}
    (h : applyStep st loc = .found r) :
    (r.pfx = "" ∧ r.sfx = "") ∨
      ((st = .goRightUntilLastContinuousValue ∨ st = .goBelowUntilLastContinuousValue) ∧
        r = loc) := by
  cases st with
  | move dx dy n =>
      simp only [applyStep] at h
      cases hm : loc.move dx dy n with
      | none => rw [hm] at h; simp at h
      | some l =>
          rw [hm] at h
          simp only [FRes.found.injEq] at h
          subst h
          exact Or.inl ⟨(move_pfx_sfx hm).1, (move_pfx_sfx hm).2.1⟩
  | goRightUntilValue =>
      have hc := mUVA_found (fuelB loc.sheet) loc.x loc.y r h
      exact Or.inl ⟨hc.2.2.2.2.1, hc.2.2.2.2.2⟩
  | goBelowUntilValue =>
      have hc := mUVA_found (fuelB loc.sheet) loc.x loc.y r h
      exact Or.inl ⟨hc.2.2.2.2.1, hc.2.2.2.2.2⟩
  | goRightUntilExact t =>
      have hc := mUA_found _ _ _ h
      exact Or.inl ⟨hc.2.2.2.2.1, hc.2.2.2.2.2.1⟩
  | goRightUntilPfx p =>
      have hc := mUA_found _ _ _ h
      exact Or.inl ⟨hc.2.2.2.2.1, hc.2.2.2.2.2.1⟩
  | goBelowUntilExact t =>
      have hc := mUA_found _ _ _ h
      exact Or.inl ⟨hc.2.2.2.2.1, hc.2.2.2.2.2.1⟩
  | goBelowUntilPfx p =>
      have hc := mUA_found _ _ _ h
      exact Or.inl ⟨hc.2.2.2.2.1, hc.2.2.2.2.2.1⟩
  | goRightUntilLastContinuousValue =>
      rcases contAux_found _ _ _ h with he | ⟨_, _, h3, h4⟩
      · exact Or.inr ⟨Or.inl rfl, he⟩
      · exact Or.inl ⟨h3, h4⟩
  | goBelowUntilLastContinuousValue =>
      rcases contAux_found _ _ _ h with he | ⟨_, _, h3, h4⟩
      · exact Or.inr ⟨Or.inr rfl, he⟩
      · exact Or.inl ⟨h3, h4⟩
  | getSuffix =>
      simp only [applyStep, FRes.found.injEq] at h
      subst h
      exact Or.inl ⟨rfl, rfl⟩
  | modify f =>
      simp only [applyStep] at h
      cases hf : f loc.value with
      | some v =>
          rw [hf] at h
          simp only [FRes.found.injEq] at h
          subst h
          exact Or.inl ⟨rfl, rfl⟩
      | none => rw [hf] at h; simp at h

lemma evalSteps_cons (st : Step) (steps : List Step) (r : FRes) :
    evalSteps (st :: steps) r =
      evalSteps steps
        (match r with
         | .found loc => applyStep st loc
         | r => r) := rfl

lemma evalSteps_no_loc : ∀ (steps : List Step) (r : FRes),
    (∀ l, r ≠ .found l) → evalSteps steps r = r := by
  intro steps
  induction steps with
  | nil => intro r _; rfl
  | cons st t ih =>
      intro r h
      cases r with
      | found l => exact absurd rfl (h l)
      | notFound => exact ih .notFound (by simp)
      | fuelOut => exact ih .fuelOut (by simp)
      | err m => exact ih (.err m) (by simp)

lemma evalSteps_append (s1 s2 : List Step) (r : FRes) :
    evalSteps (s1 ++ s2) r = evalSteps s2 (evalSteps s1 r) := by
  simp [evalSteps, List.foldl_append]

lemma evalSteps_wf {sheet : Sheet} : ∀ (steps : List Step) (r : FRes) (l : Location),
    (∀ l0, r = .found l0 → l0.sheet = sheet ∧ withinBounds sheet l0.x l0.y = true) →
    evalSteps steps r = .found l →
    l.sheet = sheet ∧ withinBounds sheet l.x l.y = true := by
  intro steps
  induction steps with
  | nil =>
      intro r l hr h
      exact hr l h
  | cons st t ih =>
      intro r l hr h
      cases r with
      | found loc =>
          rw [evalSteps_cons] at h
          refine ih (applyStep st loc) l ?_ h
          intro l0 h0
          exact applyStep_wf (hr loc rfl).1 (hr loc rfl).2 h0
      | notFound => rw [evalSteps_no_loc _ _ (by simp)] at h; simp at h
      | fuelOut => rw [evalSteps_no_loc _ _ (by simp)] at h; simp at h
      | err m => rw [evalSteps_no_loc _ _ (by simp)] at h; simp at h

lemma evalRule_wf {p : Prim} {steps : List Step} {sheet : Sheet} {l : Location}
    (h : evalRule p steps sheet = .found l) :
    l.sheet = sheet ∧ withinBounds sheet l.x l.y = true := by
  unfold evalRule at h
  exact evalSteps_wf steps _ l (fun l0 h0 => runPrim_found h0) h

/-! ## Row assembly (`aggregate_csv_data` loop body) -/

lemma find_cons_pos {α : Type} (p : α → Bool) (a : α) (l : List α) (h : p a = true) :
    (a :: l).find? p = some a := by
  simp [List.find?, h]

lemma find_cons_neg {α : Type} (p : α → Bool) (a : α) (l : List α) (h : p a = false) :
    (a :: l).find? p = l.find? p := by
  simp [List.find?, h]

lemma find_map_update {k : String} {v : Val} :
    ∀ (row : List (String × Val)), row.any (fun kv => kv.1 == k) = true →
      (row.map (fun kv => if kv.1 == k then (k, v) else kv)).find?
        (fun kv => kv.1 == k) = some (k, v) := by
  intro row
  induction row with
  | nil => intro h; simp at h
  | cons a t ih =>
      intro h
      by_cases ha : (a.1 == k) = true
      · rw [List.map_cons, if_pos ha]
        exact find_cons_pos (fun kv => kv.1 == k) (k, v) _ (by simp)
      · simp only [List.any_cons, ha, Bool.false_or] at h
        rw [List.map_cons, if_neg ha,
          find_cons_neg (fun kv => kv.1 == k) a _ ((Bool.not_eq_true _) ▸ ha)]
        exact ih h

lemma find_append_single {k : String} {v : Val} :
    ∀ (row : List (String × Val)), row.any (fun kv => kv.1 == k) = false →
      (row ++ [(k, v)]).find? (fun kv => kv.1 == k) = some (k, v) := by
  intro row
  induction row with
  | nil =>
      intro _
      rw [List.nil_append]
      exact find_cons_pos (fun kv => kv.1 == k) (k, v) _ (by simp)
  | cons a t ih =>
      intro h
      simp only [List.any_cons, Bool.or_eq_false_iff] at h
      rw [List.cons_append, find_cons_neg (fun kv => kv.1 == k) a _ h.1]
      exact ih h.2

lemma dictGet_set_self (row : List (String × Val)) (k : String) (v : Val) :
    dictGet (dictSet row k v) k = some v := by
  unfold dictSet dictGet
  by_cases hany : row.any (fun kv => kv.1 == k) = true
  · rw [if_pos hany, find_map_update row hany]
    rfl
  · rw [if_neg hany,
      find_append_single row ((Bool.not_eq_true _) ▸ hany)]
    rfl

lemma find_map_update_other {k k' : String} {v : Val} (hne : k' ≠ k) :
    ∀ (row : List (String × Val)),
      (row.map (fun kv => if kv.1 == k then (k, v) else kv)).find?
        (fun kv => kv.1 == k') = row.find? (fun kv => kv.1 == k') := by
  intro row
  induction row with
  | nil => simp
  | cons a t ih =>
      by_cases ha : (a.1 == k) = true
      · have hak : a.1 = k := by simpa using ha
        rw [List.map_cons, if_pos ha,
          find_cons_neg (fun kv => kv.1 == k') (k, v) _ (by simp [hne.symm]),
          find_cons_neg (fun kv => kv.1 == k') a _ (by simp [hak, hne.symm])]
        exact ih
      · rw [List.map_cons, if_neg ha]
        by_cases ha' : (a.1 == k') = true
        · rw [find_cons_pos (fun kv => kv.1 == k') a _ ha',
            find_cons_pos (fun kv => kv.1 == k') a _ ha']
        · rw [find_cons_neg (fun kv => kv.1 == k') a _ ((Bool.not_eq_true _) ▸ ha'),
            find_cons_neg (fun kv => kv.1 == k') a _ ((Bool.not_eq_true _) ▸ ha')]
          exact ih

lemma find_append_single_other {k k' : String} {v : Val} (hne : k' ≠ k)
    (row : List (String × Val)) :
    (row ++ [(k, v)]).find? (fun kv => kv.1 == k') = row.find? (fun kv => kv.1 == k') := by
  induction row with
  | nil =>
      rw [List.nil_append,
        find_cons_neg (fun kv => kv.1 == k') (k, v) _ (by simp [hne.symm])]
  | cons a t ih =>
      rw [List.cons_append]
      by_cases ha' : (a.1 == k') = true
      · rw [find_cons_pos (fun kv => kv.1 == k') a _ ha',
          find_cons_pos (fun kv => kv.1 == k') a _ ha']
      · rw [find_cons_neg (fun kv => kv.1 == k') a _ ((Bool.not_eq_true _) ▸ ha'),
          find_cons_neg (fun kv => kv.1 == k') a _ ((Bool.not_eq_true _) ▸ ha')]
        exact ih

lemma dictGet_set_other {k k' : String} (hne : k' ≠ k)
    (row : List (String × Val)) (v : Val) :
    dictGet (dictSet row k v) k' = dictGet row k' := by
  unfold dictSet dictGet
  by_cases hany : row.any (fun kv => kv.1 == k) = true
  · rw [if_pos hany, find_map_update_other hne row]
  · rw [if_neg hany, find_append_single_other hne row]

lemma buildRowAux_spec {sheet : Sheet} :
    ∀ (cols : List (String × (Sheet → FRes))) (row : List (String × Val)),
      (∀ pr ∈ cols, (pr.2 sheet).isOk = true) →
      (cols.map Prod.fst).Nodup →
      ∃ out, buildRowAux sheet cols row = .ok out ∧
        (∀ k, k ∉ cols.map Prod.fst → dictGet out k = dictGet row k) ∧
        (∀ pr ∈ cols,
          (∀ l, pr.2 sheet = .found l → dictGet out pr.1 = some l.value) ∧
          (pr.2 sheet = .notFound → dictGet out pr.1 = dictGet row pr.1)) := by
  intro cols
  induction cols with
  | nil =>
      intro row _ _
      exact ⟨row, rfl, fun k _ => rfl, by simp⟩
  | cons pr rest ih =>
      intro row hok hnd
      obtain ⟨nm, f⟩ := pr
      have hok0 : (f sheet).isOk = true := hok (nm, f) (by simp)
      simp only [List.map_cons, List.nodup_cons] at hnd
      obtain ⟨hnm, hndr⟩ := hnd
      cases hres : f sheet with
      | found l =>
          obtain ⟨out, hout, hpres, hcols⟩ := ih (dictSet row nm l.value)
            (fun q hq => hok q (List.mem_cons_of_mem _ hq)) hndr
          refine ⟨out, ?_, ?_, ?_⟩
          · simp only [buildRowAux, hres]
            exact hout
          · intro k hk
            simp only [List.map_cons, List.mem_cons] at hk
            push_neg at hk
            rw [hpres k hk.2, dictGet_set_other hk.1]
          · intro q hq
            simp only [List.mem_cons] at hq
            rcases hq with hq | hq
            · subst hq
              refine ⟨?_, ?_⟩
              · intro l' hl'
                have hl2 : f sheet = FRes.found l' := hl'
                rw [hres] at hl2
                simp only [FRes.found.injEq] at hl2
                subst hl2
                show dictGet out nm = some l.value
                rw [hpres nm hnm, dictGet_set_self]
              · intro hnf
                have hnf2 : f sheet = FRes.notFound := hnf
                rw [hres] at hnf2
                exact absurd hnf2 (by simp)
            · obtain ⟨hfound, hnf⟩ := hcols q hq
              refine ⟨hfound, fun hq2 => ?_⟩
              have hq1 : q.1 ≠ nm := by
                intro he
                exact hnm (he ▸ List.mem_map_of_mem Prod.fst hq)
              rw [hnf hq2, dictGet_set_other hq1]
      | notFound =>
          obtain ⟨out, hout, hpres, hcols⟩ := ih row
            (fun q hq => hok q (List.mem_cons_of_mem _ hq)) hndr
          refine ⟨out, ?_, ?_, ?_⟩
          · simp only [buildRowAux, hres]
            exact hout
          · intro k hk
            simp only [List.map_cons, List.mem_cons] at hk
            push_neg at hk
            exact hpres k hk.2
          · intro q hq
            simp only [List.mem_cons] at hq
            rcases hq with hq | hq
            · subst hq
              refine ⟨?_, fun _ => hpres nm hnm⟩
              intro l' hl'
              have hl2 : f sheet = FRes.found l' := hl'
              rw [hres] at hl2
              exact absurd hl2 (by simp)
            · exact hcols q hq
      | fuelOut => simp [FRes.isOk, hres] at hok0
      | err m => simp [FRes.isOk, hres] at hok0

lemma Dir.opposite_dx (d : Dir) : d.opposite.dx = -d.dx := by
  cases d <;> rfl

lemma Dir.opposite_dy (d : Dir) : d.opposite.dy = -d.dy := by
  cases d <;> rfl

/-! ## Claim theorems -/

/-- C1 (code bug): a value transform failing on a non-numeric cell —
`remove_pvm("abc")`, i.e. `float("abc")` — raises instead of being
reported per-column: the rule evaluates to a raised exception and the
row-assembly loop of `aggregate_csv_data`, having no `try` around
`value_fn(sheet)`, aborts the whole pass instead of omitting the column
and continuing. -/
theorem transform_failure_aborts_pass :
    kainaBePvmRule [["Suma Eur"], ["abc"]] = .err "transform raised" ∧
      buildRow "inv1.csv" [["Suma Eur"], ["abc"]] [("KAINA BE PVM", kainaBePvmRule)]
        = .error "transform raised" :=
  ⟨rfl, rfl⟩


/-- C2 (counterexample): `moveBy(down, 2)` from the in-bounds cursor at
`(1, 0)` returns "not found" even though the destination `(1, 2)` is in
bounds, because the intermediate coordinate `(1, 1)` is out of bounds on
the jagged grid — destination validity alone does not decide the result. -/
theorem moveBy_dest_only_cex :
    evalRule (.exact "b") [.move 0 1 2] cxSheet = .notFound ∧
      withinBounds cxSheet 1 0 = true ∧ withinBounds cxSheet 1 2 = true := by
  decide

/-- C2 (amended): `moveBy` returns the Cursor at the destination exactly
when the coordinate after every one of the `n` steps — intermediates
included — is in bounds, and "not found" exactly when some stepped
coordinate is out of bounds. -/
theorem moveBy_path_iff (loc : Location) (dx dy : Int) (n : Nat) :
    (loc.move dx dy n =
        some { x := loc.x + n * dx, y := loc.y + n * dy,
               value := cellVal (getCell loc.sheet (loc.x + n * dx) (loc.y + n * dy)),
               sheet := loc.sheet } ↔
      (∀ i : Int, 1 ≤ i → i ≤ n →
        withinBounds loc.sheet (loc.x + i * dx) (loc.y + i * dy) = true)) ∧
    (loc.move dx dy n = none ↔
      (∃ i : Int, 1 ≤ i ∧ i ≤ n ∧
        withinBounds loc.sheet (loc.x + i * dx) (loc.y + i * dy) = false)) := by
  have hfwd : ∀ p, moveAux loc.sheet dx dy n loc.x loc.y = some p →
      (∀ i : Int, 1 ≤ i → i ≤ n →
        withinBounds loc.sheet (loc.x + i * dx) (loc.y + i * dy) = true) :=
    fun p hp => (moveAux_eq_some n loc.x loc.y p hp).2
  constructor
  · constructor
    · intro h
      unfold Location.move at h
      cases hp : moveAux loc.sheet dx dy n loc.x loc.y with
      | none => rw [hp] at h; simp at h
      | some p => exact hfwd p hp
    · intro hall
      unfold Location.move
      rw [moveAux_some_of n loc.x loc.y hall]
      rfl
  · constructor
    · intro h
      by_contra hno
      push_neg at hno
      have hall : ∀ i : Int, 1 ≤ i → i ≤ n →
          withinBounds loc.sheet (loc.x + i * dx) (loc.y + i * dy) = true := by
        intro i h1 h2
        have := hno i h1 h2
        cases hb : withinBounds loc.sheet (loc.x + i * dx) (loc.y + i * dy)
        · exact absurd hb this
        · rfl
      unfold Location.move at h
      rw [moveAux_some_of n loc.x loc.y hall] at h
      simp at h
    · rintro ⟨i, h1, h2, h3⟩
      cases hm : loc.move dx dy n with
      | none => rfl
      | some l =>
          unfold Location.move at hm
          cases hp : moveAux loc.sheet dx dy n loc.x loc.y with
          | none => rw [hp] at hm; simp at hm
          | some p =>
              have := hfwd p hp i h1 h2
              rw [this] at h3
              simp at h3


/-- C2 amended, instantiated at a concrete cursor and a one-step move. -/
theorem moveBy_path_iff_inst :
    (w2loc.move 1 0 1 =
        some { x := w2loc.x + (1 : Nat) * 1, y := w2loc.y + (1 : Nat) * 0,
               value := cellVal (getCell w2loc.sheet (w2loc.x + (1 : Nat) * 1)
                 (w2loc.y + (1 : Nat) * 0)),
               sheet := w2loc.sheet } ↔
      (∀ i : Int, 1 ≤ i → i ≤ (1 : Nat) →
        withinBounds w2loc.sheet (w2loc.x + i * 1) (w2loc.y + i * 0) = true)) ∧
    (w2loc.move 1 0 1 = none ↔
      (∃ i : Int, 1 ≤ i ∧ i ≤ (1 : Nat) ∧
        withinBounds w2loc.sheet (w2loc.x + i * 1) (w2loc.y + i * 0) = false)) :=
  moveBy_path_iff w2loc 1 0 1

/-- C3 (counterexample): on the same jagged grid, with both the start
`(1, 0)` and the endpoint `(1, 2)` in bounds, `moveBy(down, 2)` followed
by `moveBy(up, 2)` yields "not found", not a Cursor back at the start,
because the forward move already fails on the intermediate row. -/
theorem moveBy_roundtrip_cex :
    evalRule (.exact "b") [.move 0 1 2, .move 0 (-1) 2] cxSheet = .notFound ∧
      withinBounds cxSheet 1 0 = true ∧ withinBounds cxSheet 1 2 = true := by
  decide

/-- C3 (amended): whenever `moveBy(d, n)` from an in-bounds cursor
actually succeeds, `moveBy(opposite(d), n)` from the result succeeds too
and lands back on the original coordinate. -/
theorem moveBy_roundtrip_of_success (loc : Location) (d : Dir) (n : Nat) (l : Location)
    (hw : withinBounds loc.sheet loc.x loc.y = true)
    (h : loc.move d.dx d.dy n = some l) :
    ∃ l2, l.move d.opposite.dx d.opposite.dy n = some l2 ∧
      l2.x = loc.x ∧ l2.y = loc.y := by
  have hsh : l.sheet = loc.sheet := (move_pfx_sfx h).2.2
  unfold Location.move at h
  cases hp : moveAux loc.sheet d.dx d.dy n loc.x loc.y with
  | none => rw [hp] at h; simp at h
  | some p =>
      rw [hp] at h
      simp only [Option.map_some', Option.some.injEq] at h
      obtain ⟨hpe, hall⟩ := moveAux_eq_some n loc.x loc.y p hp
      have hlx : l.x = loc.x + n * d.dx := by rw [← h, hpe]
      have hly : l.y = loc.y + n * d.dy := by rw [← h, hpe]
      have hback : ∀ i : Int, 1 ≤ i → i ≤ n →
          withinBounds l.sheet (l.x + i * (-d.dx)) (l.y + i * (-d.dy)) = true := by
        intro i h1 h2
        have e1 : l.x + i * (-d.dx) = loc.x + ((n : Int) - i) * d.dx := by
          rw [hlx]; ring
        have e2 : l.y + i * (-d.dy) = loc.y + ((n : Int) - i) * d.dy := by
          rw [hly]; ring
        rw [e1, e2, hsh]
        by_cases hi : i = (n : Int)
        · subst hi
          simpa using hw
        · exact hall ((n : Int) - i) (by omega) (by omega)
      refine ⟨{ x := l.x + n * (-d.dx), y := l.y + n * (-d.dy),
                value := cellVal (getCell l.sheet (l.x + n * (-d.dx)) (l.y + n * (-d.dy))),
                sheet := l.sheet }, ?_, ?_, ?_⟩
      · rw [Dir.opposite_dx, Dir.opposite_dy]
        unfold Location.move
        rw [moveAux_some_of n l.x l.y hback]
        rfl
      · simp only
        rw [hlx]; ring
      · simp only
        rw [hly]; ring

/-- C3 amended, instantiated: a one-step right move and its reverse. -/
theorem moveBy_roundtrip_inst :
    ∃ l2, (Location.mk 1 0 (Val.str "b") [["a", "b"]] "" "").move
        Dir.right.opposite.dx Dir.right.opposite.dy 1 = some l2 ∧
      l2.x = 0 ∧ l2.y = 0 :=
  moveBy_roundtrip_of_success
    { x := 0, y := 0, value := .str "a", sheet := [["a", "b"]] }
    .right 1 (Location.mk 1 0 (Val.str "b") [["a", "b"]] "" "")
    (by decide) (by decide)


/-- C4 (counterexample): a zero-length `advanceWhileContinuous` returns
the starting cursor itself, matched-suffix intact — so a read-suffix step
after it yields `" cd"`, not the empty string the claim asserts for every
navigation step. -/
theorem continuous_keeps_context_cex :
    evalRule (.pfxFind "ab") [.goRightUntilLastContinuousValue] c4Sheet =
        .found { x := 0, y := 0, value := .str "ab cd", sheet := c4Sheet,
                 pfx := "ab", sfx := " cd" } ∧
      evalRule (.pfxFind "ab") [.goRightUntilLastContinuousValue, .getSuffix] c4Sheet =
        .found { x := 0, y := 0, value := .str " cd", sheet := c4Sheet } ∧
      Val.str " cd" ≠ Val.str "" := by
  decide

/-- C4 (amended): every chained step builds its result cursor with empty
matched-prefix/suffix, except that `advanceWhileContinuous` returns the
starting cursor unchanged (context intact) on a zero-length run; in
particular a read-suffix step right after an advance-until-prefix step
always reads the empty string. -/
theorem steps_clear_matched_context :
    (∀ (st : Step) (loc r : Location), applyStep st loc = .found r →
      (r.pfx = "" ∧ r.sfx = "") ∨
        ((st = .goRightUntilLastContinuousValue ∨
          st = .goBelowUntilLastContinuousValue) ∧ r = loc)) ∧
    (∀ (p : String) (loc r : Location), applyStep (.goBelowUntilPfx p) loc = .found r →
      applyStep .getSuffix r =
        .found { x := r.x, y := r.y, value := .str "", sheet := r.sheet }) := by
  constructor
  · intro st loc r h
    exact applyStep_clears h
  · intro p loc r h
    have hc := mUA_found _ _ _ h
    simp only [applyStep]
    rw [hc.2.2.2.2.2.1]

/-- C4 amended, instantiated: the read-suffix step itself clears the
matched context. -/
theorem steps_clear_matched_context_inst :
    ((Location.mk 0 0 (Val.str "s") [["a"]] "" "").pfx = "" ∧
      (Location.mk 0 0 (Val.str "s") [["a"]] "" "").sfx = "") ∨
      ((Step.getSuffix = .goRightUntilLastContinuousValue ∨
        Step.getSuffix = .goBelowUntilLastContinuousValue) ∧
        Location.mk 0 0 (Val.str "s") [["a"]] "" "" =
          Location.mk 0 0 (Val.str "a") [["a"]] "p" "s") :=
  steps_clear_matched_context.1 .getSuffix
    (Location.mk 0 0 (Val.str "a") [["a"]] "p" "s")
    (Location.mk 0 0 (Val.str "s") [["a"]] "" "") (by decide)

/-- C5: on a `findPrefix` hit the cursor records the prefix and the
remainder of the cell text after it, and an immediately following
read-suffix step yields that remainder as the cursor value. -/
theorem findPfx_records_remainder (p : String) (sheet : Sheet) (l : Location)
    (h : findPfx p sheet = .found l) :
    l.pfx = p ∧ cellAt sheet l.x l.y = p ++ l.sfx ∧
      l.value = .str (cellAt sheet l.x l.y) ∧
      evalSteps [.getSuffix] (findPfx p sheet) =
        .found { x := l.x, y := l.y, value := .str l.sfx, sheet := sheet } := by
  obtain ⟨hs, hw, hsw, hv, hp, hsfx⟩ := findPfx_found h
  refine ⟨hp, ?_, hv, ?_⟩
  · rw [hsfx]
    exact (startsWith_eq_append hsw).symm
  · have h1 : evalSteps [Step.getSuffix] (findPfx p sheet) = applyStep .getSuffix l := by
      rw [h]
      rfl
    rw [h1]
    simp only [applyStep]
    rw [hs]


/-- C5, instantiated on the spec's invoice-number scenario. -/
theorem findPfx_records_remainder_inst :
    (Location.mk 0 0 (Val.str "Invoice No: 12345") c5Sheet "Invoice No: " "12345").pfx
        = "Invoice No: " ∧
      cellAt c5Sheet 0 0 = "Invoice No: " ++ "12345" ∧
      (Location.mk 0 0 (Val.str "Invoice No: 12345") c5Sheet "Invoice No: " "12345").value
        = .str (cellAt c5Sheet 0 0) ∧
      evalSteps [.getSuffix] (findPfx "Invoice No: " c5Sheet) =
        .found { x := 0, y := 0, value := .str "12345", sheet := c5Sheet } :=
  findPfx_records_remainder "Invoice No: " c5Sheet
    (Location.mk 0 0 (Val.str "Invoice No: 12345") c5Sheet "Invoice No: " "12345")
    (by decide)

/-- C6: `advanceWhileContinuous` returns the last cell of the contiguous
run of in-bounds non-empty cells after the current cell, stopping just
before the first empty or out-of-bounds cell; a zero-length run returns
the cursor unchanged; and the spec's `"Total Eur"` scenario lands on
`(2, 1)` with value `"30"`. -/
theorem continuous_run_characterization (d : Dir) (loc : Location)
    (hw : withinBounds loc.sheet loc.x loc.y = true) :
    (∃ (r : Location) (k : Nat),
      loc.moveUntilLastContinuousValue d.dx d.dy = .found r ∧
      r.x = loc.x + (k : Int) * d.dx ∧ r.y = loc.y + (k : Int) * d.dy ∧
      (∀ i : Int, 1 ≤ i → i ≤ (k : Int) →
        withinBounds loc.sheet (loc.x + i * d.dx) (loc.y + i * d.dy) = true ∧
        cellAt loc.sheet (loc.x + i * d.dx) (loc.y + i * d.dy) ≠ "") ∧
      (withinBounds loc.sheet (loc.x + ((k : Int) + 1) * d.dx)
          (loc.y + ((k : Int) + 1) * d.dy) = false ∨
        cellAt loc.sheet (loc.x + ((k : Int) + 1) * d.dx)
          (loc.y + ((k : Int) + 1) * d.dy) = "") ∧
      (k = 0 → r = loc) ∧
      (0 < k → r.value = .str (cellAt loc.sheet r.x r.y))) ∧
    ((withinBounds loc.sheet (loc.x + d.dx) (loc.y + d.dy) = false ∨
        cellAt loc.sheet (loc.x + d.dx) (loc.y + d.dy) = "") →
      loc.moveUntilLastContinuousValue d.dx d.dy = .found loc) ∧
    evalRule (.exact "Total Eur") [.goBelowUntilValue, .goRightUntilLastContinuousValue]
        [["Total Eur"], ["10", "20", "30"]] =
      .found { x := 2, y := 1, value := .str "30",
               sheet := [["Total Eur"], ["10", "20", "30"]] } := by
  refine ⟨?_, ?_, by decide⟩
  · obtain ⟨r, k, h1, h2, h3, h4, h5, h6, h7⟩ :=
      contAux_char d (fuelB loc.sheet) loc rfl (escape_lt_fuelB d hw)
    exact ⟨r, k, h1, h2, h3, h4, h5, h6, fun hk => (h7 hk).1⟩
  · intro hstop
    have hfb : fuelB loc.sheet = (loc.sheet.length + maxRowLen loc.sheet + 1) + 1 := rfl
    by_cases hwn : withinBounds loc.sheet (loc.x + d.dx) (loc.y + d.dy) = true
    · rcases hstop with hoob | hempty
      · rw [hwn] at hoob
        simp at hoob
      · have hm : loc.move d.dx d.dy 1 =
            some { x := loc.x + d.dx, y := loc.y + d.dy,
                   value := .str (cellAt loc.sheet (loc.x + d.dx) (loc.y + d.dy)),
                   sheet := loc.sheet } := by
          rw [move_one, if_pos hwn]
        rw [Location.moveUntilLastContinuousValue, hfb, cont_step_some hm,
          if_pos (by simp [hempty])]
    · have hm : loc.move d.dx d.dy 1 = none := by
        rw [move_one, if_neg hwn]
      rw [Location.moveUntilLastContinuousValue, hfb, cont_step_none hm]


/-- C6, instantiated at a concrete cursor moving right. -/
theorem continuous_run_characterization_inst :
    (∃ (r : Location) (k : Nat),
      w6loc.moveUntilLastContinuousValue Dir.right.dx Dir.right.dy = .found r ∧
      r.x = w6loc.x + (k : Int) * Dir.right.dx ∧
      r.y = w6loc.y + (k : Int) * Dir.right.dy ∧
      (∀ i : Int, 1 ≤ i → i ≤ (k : Int) →
        withinBounds w6loc.sheet (w6loc.x + i * Dir.right.dx)
          (w6loc.y + i * Dir.right.dy) = true ∧
        cellAt w6loc.sheet (w6loc.x + i * Dir.right.dx)
          (w6loc.y + i * Dir.right.dy) ≠ "") ∧
      (withinBounds w6loc.sheet (w6loc.x + ((k : Int) + 1) * Dir.right.dx)
          (w6loc.y + ((k : Int) + 1) * Dir.right.dy) = false ∨
        cellAt w6loc.sheet (w6loc.x + ((k : Int) + 1) * Dir.right.dx)
          (w6loc.y + ((k : Int) + 1) * Dir.right.dy) = "") ∧
      (k = 0 → r = w6loc) ∧
      (0 < k → r.value = .str (cellAt w6loc.sheet r.x r.y))) ∧
    ((withinBounds w6loc.sheet (w6loc.x + Dir.right.dx) (w6loc.y + Dir.right.dy) = false ∨
        cellAt w6loc.sheet (w6loc.x + Dir.right.dx) (w6loc.y + Dir.right.dy) = "") →
      w6loc.moveUntilLastContinuousValue Dir.right.dx Dir.right.dy = .found w6loc) ∧
    evalRule (.exact "Total Eur") [.goBelowUntilValue, .goRightUntilLastContinuousValue]
        [["Total Eur"], ["10", "20", "30"]] =
      .found { x := 2, y := 1, value := .str "30",
               sheet := [["Total Eur"], ["10", "20", "30"]] } :=
  continuous_run_characterization .right w6loc (by decide)

/-- C7: once a prefix of a rule's chain evaluates to "not found", the
remaining steps are never applied and the whole rule evaluates to "not
found" on that grid — no exception, no partial result. -/
theorem chain_short_circuits (p : Prim) (s1 s2 : List Step) (sheet : Sheet)
    (h : evalRule p s1 sheet = .notFound) :
    evalRule p (s1 ++ s2) sheet = .notFound := by
  unfold evalRule at h ⊢
  rw [evalSteps_append, h]
  exact evalSteps_no_loc s2 .notFound (by simp)

/-- C7, instantiated: a failed search primitive short-circuits the
read-suffix step that follows. -/
theorem chain_short_circuits_inst :
    evalRule (.exact "zz") ([] ++ [Step.getSuffix]) [["a"]] = .notFound :=
  chain_short_circuits (.exact "zz") [] [Step.getSuffix] [["a"]] (by decide)

/-- C8: every cursor a rule evaluation actually produces points into the
grid it was evaluated on: `0 ≤ y < rowCount` and `0 ≤ x < rowLength(y)`;
no operation builds an out-of-bounds cursor. -/
theorem found_cursor_in_bounds (p : Prim) (steps : List Step) (sheet : Sheet)
    (l : Location) (h : evalRule p steps sheet = .found l) :
    l.sheet = sheet ∧ 0 ≤ l.y ∧ l.y < (sheet.length : Int) ∧ 0 ≤ l.x ∧
      l.x < (rowLenAt sheet l.y : Int) := by
  obtain ⟨h1, h2⟩ := evalRule_wf h
  rw [withinBounds_iff] at h2
  exact ⟨h1, h2.1, h2.2.1, h2.2.2.1, h2.2.2.2⟩

/-- C8, instantiated on a one-cell grid. -/
theorem found_cursor_in_bounds_inst :
    (Location.mk 0 0 (Val.str "a") [["a"]] "" "").sheet = [["a"]] ∧
      (0 : Int) ≤ (Location.mk 0 0 (Val.str "a") [["a"]] "" "").y ∧
      (Location.mk 0 0 (Val.str "a") [["a"]] "" "").y < (([["a"]] : Sheet).length : Int) ∧
      (0 : Int) ≤ (Location.mk 0 0 (Val.str "a") [["a"]] "" "").x ∧
      (Location.mk 0 0 (Val.str "a") [["a"]] "" "").x <
        (rowLenAt [["a"]] (Location.mk 0 0 (Val.str "a") [["a"]] "" "").y : Int) :=
  found_cursor_in_bounds (.exact "a") [] [["a"]]
    (Location.mk 0 0 (Val.str "a") [["a"]] "" "") (by decide)

/-- C9: when every rule completes normally, the produced row holds each
found column's cursor value under its column name, no key at all for
"not found" columns, and always the `Filename` column with the source
file's name. -/
theorem extraction_row_contents (filename : String) (sheet : Sheet)
    (cols : List (String × (Sheet → FRes)))
    (hok : ∀ pr ∈ cols, (pr.2 sheet).isOk = true)
    (hnd : (cols.map Prod.fst).Nodup)
    (hfn : "Filename" ∉ cols.map Prod.fst) :
    ∃ row, buildRow filename sheet cols = .ok row ∧
      dictGet row "Filename" = some (.str filename) ∧
      ∀ pr ∈ cols,
        (∀ l, pr.2 sheet = .found l → dictGet row pr.1 = some l.value) ∧
        (pr.2 sheet = .notFound → dictGet row pr.1 = none) := by
  obtain ⟨out, hout, hpres, hcols⟩ :=
    buildRowAux_spec cols [("Filename", Val.str filename)] hok hnd
  refine ⟨out, hout, ?_, ?_⟩
  · rw [hpres "Filename" hfn]
    unfold dictGet
    rw [find_cons_pos (fun kv : String × Val => kv.1 == "Filename")
      ("Filename", Val.str filename) [] (by simp)]
    rfl
  · intro pr hpr
    obtain ⟨hf, hnf⟩ := hcols pr hpr
    refine ⟨hf, fun h2 => ?_⟩
    rw [hnf h2]
    have hne : pr.1 ≠ "Filename" := by
      intro he
      exact hfn (he ▸ List.mem_map_of_mem Prod.fst hpr)
    unfold dictGet
    rw [find_cons_neg (fun kv : String × Val => kv.1 == pr.1)
      ("Filename", Val.str filename) [] (by simp [hne.symm])]
    rfl


/-- C9, instantiated: one found column, one omitted column. -/
theorem extraction_row_contents_inst :
    ∃ row, buildRow "f.csv" [["x"]] w9cols = .ok row ∧
      dictGet row "Filename" = some (.str "f.csv") ∧
      ∀ pr ∈ w9cols,
        (∀ l, pr.2 [["x"]] = .found l → dictGet row pr.1 = some l.value) ∧
        (pr.2 [["x"]] = .notFound → dictGet row pr.1 = none) :=
  extraction_row_contents "f.csv" [["x"]] w9cols
    (by
      intro pr hpr
      simp only [w9cols, List.mem_cons, List.not_mem_nil, or_false] at hpr
      rcases hpr with h | h <;> subst h <;> rfl)
    (by decide) (by decide)

/-- C10: `advanceUntil` terminates on every finite grid: when no
in-bounds cell in the scan direction — the ray of coordinates `i ≥ 1`
steps from the cursor — satisfies the predicate, it reaches the grid
boundary and returns "not found", never an exception, never an unbounded
loop (the canonical fuel, one more than the grid's dimensions can
consume, is never exhausted). -/
theorem advanceUntil_boundary (d : Dir) (cond : Val → Bool) (loc : Location)
    (H : ∀ i : Int, 1 ≤ i →
      withinBounds loc.sheet (loc.x + i * d.dx) (loc.y + i * d.dy) = true →
      cond (.str (cellAt loc.sheet (loc.x + i * d.dx) (loc.y + i * d.dy))) = false) :
    loc.moveUntil d.dx d.dy cond = .notFound := by
  rw [Location.moveUntil]
  have hfb : fuelB loc.sheet = (loc.sheet.length + maxRowLen loc.sheet + 1) + 1 := rfl
  rw [hfb, mUA_succ]
  cases hres : loc.moveUntilValue d.dx d.dy with
  | found c =>
      simp only
      have hc := mUVA_found (fuelB loc.sheet) loc.x loc.y c hres
      obtain ⟨m, hm1, hmx, hmy⟩ :=
        mUVA_found_offset (fuelB loc.sheet) loc.x loc.y c hres
      have hwit : withinBounds loc.sheet (loc.x + m * d.dx)
          (loc.y + m * d.dy) = true := by
        rw [← hmx, ← hmy]
        exact hc.2.1
      have hcond : cond c.value = false := by
        rw [hc.2.2.1, hmx, hmy]
        exact H m hm1 hwit
      rw [if_neg (by simp [hcond])]
      refine mUA_notFound_ray loc.x loc.y H _ c m hc.1 (by omega) hmx hmy ?_
      have := escape_le_of_within d hc.2.1
      omega
  | notFound => rfl
  | fuelOut => exact absurd hres (mUVA_total d loc.x loc.y)
  | err m => exact absurd hres (mUVA_ne_err _ _ _ m)



/-- C10, instantiated: a downward prefix scan whose ray holds no
matching cell — the only in-bounds ray coordinate is one step down. -/
theorem advanceUntil_boundary_inst :
    w10loc.moveUntil Dir.down.dx Dir.down.dy w10cond = .notFound :=
  advanceUntil_boundary .down w10cond w10loc (by
    intro i h1 hw
    rw [withinBounds_iff] at hw
    simp only [w10loc, Dir.dx, Dir.dy, mul_one, mul_zero, add_zero, zero_add,
      List.length_cons, List.length_nil] at hw
    have hi : i = 1 := by omega
    subst hi
    decide)

end Excel
